import Mathlib

/-!
Shallow embedding of the OpenMP lowering/expansion pass of
gcc-4.3.1/gcc/omp-low.c, together with proofs settling the frozen claims
about it.  Each definition is translated from the C source function whose
name it keeps; abstract target facts (builtin tables, optabs) are carried
as explicit parameters.
-/

namespace OmpLow

/-- Schedule kinds of a worksharing loop.  The numbering (static = 0,
dynamic, guided, runtime) is the order of the runtime builtin table that
`expand_omp_for` indexes (spec section 4.7). -/
inductive SchedKind
  | sched_static
  | sched_dynamic
  | sched_guided
  | sched_runtime
deriving DecidableEq

/-- Numeric value of a schedule kind, the offset used by the table index. -/
def SchedKind.toNat : SchedKind → Nat
  | .sched_static => 0
  | .sched_dynamic => 1
  | .sched_guided => 2
  | .sched_runtime => 3

/-- Identifiers of the runtime calls the expander can emit. -/
inductive CallId
  | parallel_start
  | parallel_end
  | parallel_loop_start (sched : SchedKind)
  | parallel_sections_start
  | child_fn_call
  | omp_get_num_threads
  | omp_get_thread_num
  | gomp_barrier
  | loop_start (ix : Nat)
  | loop_next (ix : Nat)
  | loop_end
  | loop_end_nowait
deriving DecidableEq

/-- The GOMP loop-dispatch family (`GOMP_loop_*`): start, next and end
calls of the generic worksharing-loop expansion. -/
def CallId.isLoopDispatch : CallId → Bool
  | .loop_start _ => true
  | .loop_next _ => true
  | .loop_end => true
  | .loop_end_nowait => true
  | _ => false

/-! ## scan_omp_parallel (claim C10, and the child-function count of C2)

`scan_omp_parallel` (omp-low.c:1200) deletes a parallel directive with an
empty body and no copyin clause when optimizing; otherwise it creates one
context, one communication record type and one child function decl. -/

/-- What one call of `scan_omp_parallel` produced. -/
structure ScanParallelResult where
  stmtReplacedByEmpty : Bool
  contextsCreated : Nat
  childFunctionsCreated : Nat
  recordTypesCreated : Nat
deriving DecidableEq

/-- omp-low.c:1200 `scan_omp_parallel`: the early-delete branch tests
`optimize > 0 && empty_body_p (body) && no OMP_CLAUSE_COPYIN`; the main
branch builds one context, one `.omp_data_s` record type and calls
`create_omp_child_function` once. -/
def scan_omp_parallel (optimize : Nat) (bodyEmpty hasCopyin : Bool) :
    ScanParallelResult :=
  if 0 < optimize ∧ bodyEmpty = true ∧ hasCopyin = false then
    { stmtReplacedByEmpty := true
      contextsCreated := 0
      childFunctionsCreated := 0
      recordTypesCreated := 0 }
  else
    { stmtReplacedByEmpty := false
      contextsCreated := 1
      childFunctionsCreated := 1
      recordTypesCreated := 1 }

/-! ## create_omp_child_function (claim C2) -/

/-- omp-low.c:1131 `create_omp_child_function_name` builds
`name ++ "_omp_fn"` and then, unless the target forbids it, overwrites the
underscore (`prefix[len]`) with `'.'` (or with `'$'` when dots are
forbidden but dollars allowed), before handing the result to the target's
private-name formatter. -/
def child_fn_name_stem (outerAsmName : String) (noDotInLabel noDollarInLabel : Bool) :
    String :=
  if noDotInLabel = false then outerAsmName ++ ".omp_fn"
  else if noDollarInLabel = false then outerAsmName ++ "$omp_fn"
  else outerAsmName ++ "_omp_fn"

/-- Modelled from the spec: `ASM_FORMAT_PRIVATE_NAME` is a target macro
defined outside this file; the spec's `<N>` suffix (section 6, "name
derived from outer function name with a suffix `_omp_fn.<N>`") implies the
formatter appends a dot and the sequence number. -/
def asm_format_private_name (stem : String) (n : Nat) : String :=
  stem ++ "." ++ toString n

/-- omp-low.c:1131 `create_omp_child_function_name`. -/
def create_omp_child_function_name (outerAsmName : String)
    (noDotInLabel noDollarInLabel : Bool) (n : Nat) : String :=
  asm_format_private_name (child_fn_name_stem outerAsmName noDotInLabel noDollarInLabel) n

/-- Types occurring in the child function declaration. -/
inductive CType
  | void
  | ptr
deriving DecidableEq

/-- The observable shape of the child function declaration built by
omp-low.c:1152 `create_omp_child_function`. -/
structure ChildFnDecl where
  name : String
  retType : CType
  paramTypes : List CType
  treePublic : Bool
  treeStatic : Bool
  declExternal : Bool
deriving DecidableEq

/-- omp-low.c:1152 `create_omp_child_function`: the decl's type is
`build_function_type_list (void_type_node, ptr_type_node, NULL_TREE)`, its
single `PARM_DECL` is the `.omp_data_i` pointer, `TREE_PUBLIC = 0`,
`TREE_STATIC = 1`, `DECL_EXTERNAL = 0`. -/
def create_omp_child_function (outerAsmName : String)
    (noDotInLabel noDollarInLabel : Bool) (n : Nat) : ChildFnDecl :=
  { name := create_omp_child_function_name outerAsmName noDotInLabel noDollarInLabel n
    retType := .void
    paramTypes := [.ptr]
    treePublic := false
    treeStatic := true
    declExternal := false }

/-! ## expand_parallel_call (claim C1) -/

/-- The requested num_threads expression as `expand_parallel_call` sees it:
absent clause (the code builds the literal 0), a clause whose expression is
the literal 0, or a clause with some other expression, carried with its
runtime value.  `integer_zerop` holds exactly for the first two. -/
inductive NumThreadsReq
  | absent
  | litZero
  | expr (v : Nat)
deriving DecidableEq

/-- Runtime value of the requested num_threads (0 when the clause is
absent: library default). -/
def NumThreadsReq.value : NumThreadsReq → Nat
  | .absent => 0
  | .litZero => 0
  | .expr v => v

/-- `integer_zerop` on the `val` tree built at omp-low.c:2220/2228. -/
def NumThreadsReq.zerop : NumThreadsReq → Bool
  | .absent => true
  | .litZero => true
  | .expr _ => false

/-- Input snapshot of `expand_parallel_call` (omp-low.c:2188). -/
structure ParallelCallInput where
  isCombined : Bool
  innerIsSections : Bool
  innerSched : SchedKind
  hasIf : Bool
  ifCond : Bool
  req : NumThreadsReq
  hasDataArg : Bool
  wsArgs : List Int
deriving DecidableEq

/-- Runtime value of the num_threads argument built at omp-low.c:2233-2312:
without an `if` clause it is the requested value; with one, the code emits
`(cond == 0)` when `integer_zerop (val)` and the three-way
`cond ? val : 1u` otherwise. -/
def emitted_num_threads (inp : ParallelCallInput) : Nat :=
  if inp.hasIf = false then inp.req.value
  else if inp.req.zerop then (if inp.ifCond then 0 else 1)
  else (if inp.ifCond then inp.req.value else 1)

/-- omp-low.c:2198-2215: the start builtin is `GOMP_parallel_start` unless
the region is combined, in which case it is the combined loop or sections
variant. -/
def parallel_start_ix (inp : ParallelCallInput) : CallId :=
  if inp.isCombined then
    (if inp.innerIsSections then .parallel_sections_start
     else .parallel_loop_start inp.innerSched)
  else .parallel_start

/-- Argument values appearing in the emitted calls. -/
inductive ArgVal
  | addr_fn
  | addr_data
  | null_ptr
  | num_threads (v : Nat)
  | ws (v : Int)
deriving DecidableEq

/-- omp-low.c:2314-2319, 2335-2339: the data argument is the address of the
sender record, or a null pointer when there is no record. -/
def parallel_data_arg (inp : ParallelCallInput) : ArgVal :=
  if inp.hasDataArg then .addr_data else .null_ptr

/-- omp-low.c:2188 `expand_parallel_call`: the calls inserted at the split
point, in order — the start builtin with `(&child_fn, data, num_threads)`
(plus the worksharing arguments when combined), the direct call
`child_fn (data)`, and `GOMP_parallel_end ()`. -/
def expand_parallel_call (inp : ParallelCallInput) : List (CallId × List ArgVal) :=
  [ (parallel_start_ix inp,
      [ArgVal.addr_fn, parallel_data_arg inp,
       ArgVal.num_threads (emitted_num_threads inp)] ++ inp.wsArgs.map ArgVal.ws),
    (CallId.child_fn_call, [parallel_data_arg inp]),
    (CallId.parallel_end, []) ]

/-! ## determine_parallel_type (claim C5) -/

/-- Kind of the inner region nested in a parallel region. -/
inductive RegionKind
  | rFor
  | rSections
  | rOther
deriving DecidableEq

/-- The loop-header facts `workshare_safe_to_combine_p` reads out of the
inner worksharing region via `extract_omp_for_data`, plus the structural
facts `determine_parallel_type` checks on the inner region. -/
structure InnerWs where
  typ : RegionKind
  exitPresent : Bool
  contPresent : Bool
  schedClause : Option SchedKind
  ordered : Bool
  n1Inv : Bool
  n2Inv : Bool
  stepInv : Bool
  chunkClause : Option Bool
deriving DecidableEq

/-- omp-low.c:230-239 inside `extract_omp_for_data`: a runtime schedule
must have no chunk; with no chunk clause, a default chunk (the constant 0
for ordered static, the constant 1 otherwise) is installed for every
schedule except plain static.  The carried Bool is
`is_gimple_min_invariant` of the chunk expression; the installed default
constants are invariant. -/
def extract_chunk (sched : SchedKind) (ordered : Bool) (chunkClause : Option Bool) :
    Option Bool :=
  match chunkClause with
  | some inv => some inv
  | none =>
    if sched = .sched_runtime then none
    else if sched ≠ .sched_static ∨ ordered = true then some true
    else none

/-- omp-low.c:285 `workshare_safe_to_combine_p`: sections are always safe;
a loop is safe when `n1`, `n2`, `step` and (when present) the extracted
chunk are all `is_gimple_min_invariant`. -/
def workshare_safe_to_combine_p (w : InnerWs) : Bool :=
  match w.typ with
  | .rSections => true
  | .rFor =>
    w.n1Inv && w.n2Inv && w.stepInv &&
      (match extract_chunk (w.schedClause.getD .sched_static) w.ordered w.chunkClause with
       | some inv => inv
       | none => true)
  | .rOther => false

/-- The snapshot of a parallel region that `determine_parallel_type`
(omp-low.c:367) examines. -/
structure ParRegion where
  typIsParallel : Bool
  exitPresent : Bool
  inner : Option InnerWs
  parEntryFlowsToWsEntry : Bool
  wsExitFlowsToParExit : Bool
  parallelCombinedPragma : Bool
  wsEntrySoleStmt : Bool
  parExitSoleStmt : Bool
deriving DecidableEq

/-- omp-low.c:367 `determine_parallel_type`: whether the region (and its
inner worksharing region) get `is_combined_parallel` set. -/
def determine_parallel_type (r : ParRegion) : Bool :=
  match r.inner with
  | none => false
  | some w =>
    if r.exitPresent = false ∨ w.exitPresent = false ∨ w.contPresent = false then false
    else if r.typIsParallel = false ∨ (w.typ ≠ .rFor ∧ w.typ ≠ .rSections) then false
    else if r.parEntryFlowsToWsEntry && r.wsExitFlowsToParExit
            && workshare_safe_to_combine_p w
            && (r.parallelCombinedPragma || (r.wsEntrySoleStmt && r.parExitSoleStmt)) then
      if w.typ = .rFor
          ∧ (w.schedClause = none ∨ w.schedClause = some .sched_static
             ∨ w.ordered = true) then false
      else true
    else false

/-! ## omp_reduction_init (claim C7) -/

/-- Reduction operators (the tree codes `omp_reduction_init` switches
on). -/
inductive RedOp
  | plus
  | minus
  | mult
  | bit_ior
  | bit_xor
  | bit_and
  | truth_or
  | truth_orif
  | truth_xor
  | ne
  | truth_and
  | truth_andif
  | eq
  | rmax
  | rmin
deriving DecidableEq

/-- The facts about the reduction variable's type that
`omp_reduction_init` consults. -/
structure ScalarType where
  isFloat : Bool
  honorsInfinities : Bool
  intMin : Int
  intMax : Int
deriving DecidableEq

/-- Neutral value produced by `omp_reduction_init`; `intVal z` stands for
the integer constant `z` folded into the reduction type. -/
inductive InitVal
  | intVal (z : Int)
  | posInf
  | negInf
  | mostPosFinite
  | mostNegFinite
deriving DecidableEq

/-- omp-low.c:1578 `omp_reduction_init`: the neutral element for each
reduction operator; for `MAX_EXPR`/`MIN_EXPR` on floats it is the infinity
when the mode honors infinities and the most negative/positive finite
value (`real_maxval`) otherwise, and on integers the type's
minimum/maximum value. -/
def omp_reduction_init (op : RedOp) (ty : ScalarType) : InitVal :=
  match op with
  | .plus | .minus | .bit_ior | .bit_xor | .truth_or | .truth_orif | .truth_xor | .ne =>
    .intVal 0
  | .mult | .truth_and | .truth_andif | .eq => .intVal 1
  | .bit_and => .intVal (-1)
  | .rmax =>
    if ty.isFloat then (if ty.honorsInfinities then .negInf else .mostNegFinite)
    else .intVal ty.intMin
  | .rmin =>
    if ty.isFloat then (if ty.honorsInfinities then .posInf else .mostPosFinite)
    else .intVal ty.intMax

/-- omp-low.c:1974-1977 in `lower_reduction_clauses`: `reduction(-:var)`
sums the partial results, so its merge uses `PLUS_EXPR`. -/
def reduction_merge_code (op : RedOp) : RedOp :=
  if op = .minus then .plus else op

/-! ## remove_exit_barrier (claim C8) -/

/-- The statement kinds `remove_exit_barrier` distinguishes. -/
inductive GStmt
  | label
  | omp_return (nowait : Bool)
  | assign
  | other_stmt
deriving DecidableEq

/-- omp-low.c:2430-2438: stamp the nowait flag on the `OMP_RETURN` ending
a predecessor block; blocks not ending in an `OMP_RETURN` (or empty) are
left alone. -/
def set_ws_nowait (blk : List GStmt) : List GStmt :=
  match blk.getLast? with
  | some (GStmt.omp_return _) => blk.dropLast ++ [GStmt.omp_return true]
  | _ => blk

/-- omp-low.c:2403 `remove_exit_barrier`: `exitBlk` is `none` when the
parallel region does not return, otherwise the statements of the exit
block that precede its trailing parallel `OMP_RETURN`.  The code walks
back one statement from that `OMP_RETURN`: unless there is nothing there
or a `LABEL_EXPR`, it gives up; otherwise every predecessor block ending
in an `OMP_RETURN` is stamped nowait. -/
def remove_exit_barrier (exitBlk : Option (List GStmt))
    (preds : List (List GStmt)) : List (List GStmt) :=
  match exitBlk with
  | none => preds
  | some before =>
    match before.getLast? with
    | some s => if s = GStmt.label then preds.map set_ws_nowait else preds
    | none => preds.map set_ws_nowait

/-! ## diagnose_sb_0 (claim C9) -/

/-- Verdict of the structured-block diagnostic for one branch. -/
inductive SbVerdict
  | no_error
  | invalid_exit
  | invalid_entry
deriving DecidableEq

/-- omp-low.c:5140 `diagnose_sb_0`.  The branch's context is the innermost
enclosing construct (or none); the label's context is its whole chain of
enclosing constructs, innermost first (built by `diagnose_sb_1` with
`tree_cons`).  Constructs are identified by numbers.  The returned Bool
records whether the offending branch was replaced by an empty
statement. -/
def diagnose_sb_0 (branchCtx : Option Nat) (labelCtx : List Nat) :
    SbVerdict × Bool :=
  if labelCtx.head? = branchCtx then (.no_error, false)
  else
    match branchCtx with
    | none => (.invalid_entry, true)
    | some b => if b ∈ labelCtx then (.invalid_entry, true) else (.invalid_exit, true)

/-- Chains of enclosing constructs recorded for a branch and for a label
come from one construct tree: any occurrence of the branch's innermost
construct inside the label's chain carries the branch's whole chain above
it (the enclosing chain of a construct is unique). -/
def ChainsConsistent (bc lc : List Nat) : Prop :=
  ∀ i, i ≤ lc.length → ((lc.drop i).head? = bc.head? → lc.drop i = bc)

instance (bc lc : List Nat) : Decidable (ChainsConsistent bc lc) :=
  Nat.decidableBallLE lc.length _

/-! ## expand_omp_for (claim C4) -/

/-- omp-low.c:230-239 in `extract_omp_for_data`, value view: the chunk
expression after defaulting — a runtime schedule keeps none (and asserts
the clause had none); any other schedule except plain non-ordered static
receives a default constant chunk (0 for ordered static, 1 otherwise). -/
def chunk_after_default (sched : SchedKind) (ordered : Bool)
    (userChunk : Option Int) : Option Int :=
  match userChunk with
  | some c => some c
  | none =>
    if sched = .sched_runtime then none
    else if sched ≠ .sched_static ∨ ordered = true then
      some (if sched = .sched_static then 0 else 1)
    else none

/-- The loop-header facts `expand_omp_for` dispatches on. -/
structure ForFd where
  sched : SchedKind
  ordered : Bool
  userChunk : Option Int
deriving DecidableEq

/-- The expansion strategy chosen for a worksharing loop; the generic
strategy carries the indices added to `BUILT_IN_GOMP_LOOP_STATIC_START`
and `BUILT_IN_GOMP_LOOP_STATIC_NEXT`. -/
inductive LoopExpansion
  | open_coded_nochunk
  | open_coded_chunk
  | generic (startIx nextIx : Nat)
deriving DecidableEq

/-- omp-low.c:3348 `expand_omp_for`: static schedule without ordered and
with a continue block goes to the open-coded expanders (split on the
chunk); everything else goes to `expand_omp_for_generic` with
`fn_index = sched_kind + have_ordered * 4`. -/
def expand_omp_for (fd : ForFd) (contPresent : Bool) : LoopExpansion :=
  if fd.sched = .sched_static ∧ fd.ordered = false ∧ contPresent = true then
    (if chunk_after_default fd.sched fd.ordered fd.userChunk = none
     then .open_coded_nochunk else .open_coded_chunk)
  else
    .generic (fd.sched.toNat + 4 * (if fd.ordered then 1 else 0))
      (fd.sched.toNat + 4 * (if fd.ordered then 1 else 0))

/-- omp-low.c:2732 `expand_omp_for_generic`, call shape: a non-combined
region emits the `_start` call in the entry block while a combined one
emits a `_next` there (the `_start` was fused into the combined parallel
start); an unbroken loop (continue block present) emits one `_next` in the
continuation block; the exit emits `GOMP_loop_end` or the nowait
variant. -/
def expand_omp_for_generic_calls (isCombined broken : Bool)
    (startIx nextIx : Nat) (nowait : Bool) : List CallId :=
  (if isCombined then [CallId.loop_next nextIx] else [CallId.loop_start startIx])
    ++ (if broken then [] else [CallId.loop_next nextIx])
    ++ [if nowait then CallId.loop_end_nowait else CallId.loop_end]

/-- Whether a call is some `GOMP_loop_*_start`. -/
def CallId.isLoopStart : CallId → Bool
  | .loop_start _ => true
  | _ => false

/-- Whether a call is some `GOMP_loop_*_next`. -/
def CallId.isLoopNext : CallId → Bool
  | .loop_next _ => true
  | _ => false

/-! ## expand_omp_atomic (claim C6) -/

/-- The operator codes `expand_omp_atomic_fetch_op` accepts
(omp-low.c:3685-3710). -/
inductive AtomicOp
  | op_plus
  | op_pointer_plus
  | op_minus
  | op_bit_and
  | op_bit_ior
  | op_bit_xor
deriving DecidableEq

/-- Modelled from the spec: `commutative_tree_code` is defined outside
this file; of the six supported operator codes, plus and the bitwise ones
commute, while pointer-plus (heterogeneous operand types) and minus do
not. -/
def AtomicOp.commutative : AtomicOp → Bool
  | .op_plus | .op_bit_and | .op_bit_ior | .op_bit_xor => true
  | .op_pointer_plus | .op_minus => false

/-- The statement shape `expand_omp_atomic_fetch_op` looks for at the head
of the store block (after labels): a modify statement, whether an
`OMP_ATOMIC_STORE` follows it, whether its left side is the stored value,
the operator code of its right side (none when not one of the six), and
which operand equals the loaded temporary. -/
structure StoreShape where
  followedByAtomicStore : Bool
  lhsIsStoredVal : Bool
  rhsOp : Option AtomicOp
  firstOperandIsLoaded : Bool
  secondOperandIsLoaded : Bool

/-- Input snapshot of `expand_omp_atomic` (omp-low.c:3975): type size and
alignment in bytes, whether the type is integral or pointer, whether the
store block is the single successor of the load block, the store block's
head shape (none when its first non-label statement is not a modify), and
the target's optab tables (per builtin index: both `PLUS_EXPR` and
`MINUS_EXPR` consult `sync_add_optab`). -/
structure AtomicInput where
  sizeBytes : Nat
  alignBytes : Nat
  integralOrPointer : Bool
  storeFollowsLoad : Bool
  store : Option StoreShape
  syncAdd : Nat → Bool
  syncAnd : Nat → Bool
  syncIor : Nat → Bool
  syncXor : Nat → Bool
  cas : Nat → Bool

/-- Fuel-driven binary logarithm, agreeing with `Nat.log2` whenever the
fuel is at least the argument (`log2Fuel_eq`); spelled this way so that
concrete instances evaluate inside the kernel. -/
def log2Fuel : Nat → Nat → Nat
  | 0, _ => 0
  | fuel+1, n => if n ≥ 2 then log2Fuel fuel (n / 2) + 1 else 0

theorem log2Fuel_eq (fuel n : Nat) (h : n ≤ fuel) : log2Fuel fuel n = Nat.log2 n := by
  induction fuel generalizing n with
  | zero =>
    have hn : n = 0 := by omega
    subst hn
    rw [log2Fuel, Nat.log2.eq_def]
    simp
  | succ f ih =>
    rw [log2Fuel, Nat.log2.eq_def]
    by_cases h2 : n ≥ 2
    · rw [if_pos h2, if_pos h2, ih (n / 2) (by omega)]
    · rw [if_neg h2, if_neg h2]

/-- `exact_log2`: the exponent when the argument is a power of two, -1
otherwise. -/
def exactLog2 (n : Nat) : Int :=
  if 0 < n ∧ n = 2 ^ log2Fuel n n then (log2Fuel n n : Int) else -1

/-- `exact_log2` recovers the exponent of a power of two. -/
theorem exactLog2_two_pow (k : Nat) : exactLog2 (2 ^ k) = (k : Int) := by
  have hlog : log2Fuel (2 ^ k) (2 ^ k) = k := by
    rw [log2Fuel_eq _ _ (Nat.le_refl _), Nat.log2_eq_log_two]
    exact Nat.log_pow (by omega) k
  unfold exactLog2
  rw [hlog, if_pos ⟨pow_pos (by omega) k, rfl⟩]

/-- A size passes `exact_log2`'s range gate 0..4 exactly when it is one of
the supported power-of-two sizes 1, 2, 4, 8, 16. -/
theorem exactLog2_range_iff (n : Nat) :
    (0 ≤ exactLog2 n ∧ exactLog2 n ≤ 4)
      ↔ (n = 1 ∨ n = 2 ∨ n = 4 ∨ n = 8 ∨ n = 16) := by
  constructor
  · rintro ⟨h0, h4⟩
    unfold exactLog2 at h0 h4
    by_cases hp : 0 < n ∧ n = 2 ^ log2Fuel n n
    · rw [if_pos hp] at h4
      have hk : log2Fuel n n ≤ 4 := by exact_mod_cast h4
      have hn := hp.2
      have hcases : log2Fuel n n = 0 ∨ log2Fuel n n = 1 ∨ log2Fuel n n = 2
          ∨ log2Fuel n n = 3 ∨ log2Fuel n n = 4 := by omega
      rcases hcases with hc | hc | hc | hc | hc <;> rw [hc] at hn <;>
        norm_num at hn <;> omega
    · rw [if_neg hp] at h0
      exact absurd h0 (by norm_num)
  · have h1 : exactLog2 1 = 0 := by simpa using exactLog2_two_pow 0
    have h2 : exactLog2 2 = 1 := by simpa using exactLog2_two_pow 1
    have h4 : exactLog2 4 = 2 := by simpa using exactLog2_two_pow 2
    have h8 : exactLog2 8 = 3 := by simpa using exactLog2_two_pow 3
    have h16 : exactLog2 16 = 4 := by simpa using exactLog2_two_pow 4
    rintro (rfl | rfl | rfl | rfl | rfl) <;> simp [h1, h2, h4, h8, h16]

/-- With a power-of-two alignment and a supported size, the exponent
comparison of `expand_omp_atomic` is the claim's "alignment at least the
size". -/
theorem exactLog2_le_iff (n j : Nat)
    (hn : n = 1 ∨ n = 2 ∨ n = 4 ∨ n = 8 ∨ n = 16) :
    (exactLog2 n ≤ exactLog2 (2 ^ j)) ↔ n ≤ 2 ^ j := by
  obtain ⟨k, hk⟩ : ∃ k, n = 2 ^ k := by
    rcases hn with rfl | rfl | rfl | rfl | rfl
    exacts [⟨0, by norm_num⟩, ⟨1, by norm_num⟩, ⟨2, by norm_num⟩,
      ⟨3, by norm_num⟩, ⟨4, by norm_num⟩]
  subst hk
  rw [exactLog2_two_pow, exactLog2_two_pow]
  constructor
  · intro h
    exact (Nat.pow_le_pow_iff_right (a := 2) (by omega)).mpr (by exact_mod_cast h)
  · intro h
    exact_mod_cast (Nat.pow_le_pow_iff_right (a := 2) (by omega)).mp h

/-- The optab consulted for an operator (omp-low.c:3685-3710: add for
plus, pointer-plus and minus; and/ior/xor for the bitwise codes),
evaluated at builtin index `idx`. -/
def fetch_optab_ok (inp : AtomicInput) (op : AtomicOp) (idx : Nat) : Bool :=
  match op with
  | .op_plus | .op_pointer_plus | .op_minus => inp.syncAdd idx
  | .op_bit_and => inp.syncAnd idx
  | .op_bit_ior => inp.syncIor idx
  | .op_bit_xor => inp.syncXor idx

/-- omp-low.c:3644 `expand_omp_atomic_fetch_op`: succeed exactly when the
store block opens with `stored_val = rhs` followed by the atomic store,
`rhs` is one of the six codes with the loaded temporary as first operand
(or second, for a commutative code), and the optab supports the
operation at this size. -/
def expand_omp_atomic_fetch_op (inp : AtomicInput) (idx : Nat) : Bool :=
  match inp.store with
  | none => false
  | some s =>
    if s.followedByAtomicStore = false then false
    else if s.lhsIsStoredVal = false then false
    else
      match s.rhsOp with
      | none => false
      | some op =>
        if s.firstOperandIsLoaded then fetch_optab_ok inp op idx
        else if op.commutative && s.secondOperandIsLoaded then fetch_optab_ok inp op idx
        else false

/-- The three strategies of omp-low.c:3975 `expand_omp_atomic`. -/
inductive AtomicStrategy
  | fetch_op
  | cas_loop
  | mutex
deriving DecidableEq

/-- omp-low.c:3975 `expand_omp_atomic`: require the size to be a power of
two in 1..16 and the alignment's exponent at least the size's; then try
the fetch-op (only for integral or pointer types with the store block
immediately following the load block), then the compare-and-swap pipeline
(which fails only when the target lacks a compare-and-swap at this size),
and fall back to the mutex. -/
def expand_omp_atomic (inp : AtomicInput) : AtomicStrategy :=
  let index := exactLog2 inp.sizeBytes
  if 0 ≤ index ∧ index ≤ 4 then
    if index ≤ exactLog2 inp.alignBytes then
      if (inp.integralOrPointer && inp.storeFollowsLoad)
          && expand_omp_atomic_fetch_op inp index.toNat then .fetch_op
      else if inp.cas index.toNat then .cas_loop
      else .mutex
    else .mutex
  else .mutex

/-- The fetch-op conditions in the words of the claim: the stored value's
right side has the shape `loaded OP expr` (or `expr OP loaded` for
commutative `OP`) with `OP` among plus, pointer-plus, minus, bit-and,
bit-or, bit-xor, and the machine supports that operation at the type's
size. -/
def rhs_shape_supported (inp : AtomicInput) : Prop :=
  ∃ s, inp.store = some s
    ∧ s.followedByAtomicStore = true
    ∧ s.lhsIsStoredVal = true
    ∧ ∃ op, s.rhsOp = some op
      ∧ (s.firstOperandIsLoaded = true
          ∨ (op.commutative = true ∧ s.secondOperandIsLoaded = true))
      ∧ fetch_optab_ok inp op (exactLog2 inp.sizeBytes).toNat = true

/-- The fetch-op attempt succeeds exactly on the claim's shape
conditions. -/
theorem expand_omp_atomic_fetch_op_iff (inp : AtomicInput) (idx : Nat) :
    expand_omp_atomic_fetch_op inp idx = true ↔
      ∃ s, inp.store = some s
        ∧ s.followedByAtomicStore = true
        ∧ s.lhsIsStoredVal = true
        ∧ ∃ op, s.rhsOp = some op
          ∧ (s.firstOperandIsLoaded = true
              ∨ (op.commutative = true ∧ s.secondOperandIsLoaded = true))
          ∧ fetch_optab_ok inp op idx = true := by
  cases hst : inp.store with
  | none => simp [expand_omp_atomic_fetch_op, hst]
  | some s =>
    simp only [expand_omp_atomic_fetch_op, hst, Option.some_inj]
    cases hfa : s.followedByAtomicStore
    · simp [hfa]
    · cases hlhs : s.lhsIsStoredVal
      · simp [hlhs]
      · cases hop : s.rhsOp with
        | none => simp [hop, hfa, hlhs]
        | some op =>
          cases hfirst : s.firstOperandIsLoaded
          · cases hcomm : op.commutative <;>
              cases hsec : s.secondOperandIsLoaded <;>
              simp [hop, hfa, hlhs, hfirst, hcomm, hsec]
          · simp [hop, hfa, hlhs, hfirst]

/-! ## expand_omp_for_static_nochunk (claim C3) -/

/-- The values computed by `expand_omp_for_static_nochunk` for one thread,
and the runtime calls that expansion emits. -/
structure StaticNochunkVals where
  n : Int
  q : Int
  s0 : Int
  e0 : Int
  v0 : Int
  e : Int
  calls : List CallId
deriving DecidableEq

/-- omp-low.c:2936 `expand_omp_for_static_nochunk`, per its own pseudocode
comment (lines 2908-2934):

    adj = (cond is <) ? STEP - 1 : STEP + 1;
    n  = (adj + N2 - N1) / STEP;          (C truncating division)
    q  = n / nthreads;  q += (q * nthreads != n);
    s0 = q * threadid;  e0 = min (s0 + q, n);
    V = s0 * STEP + N1;  if (s0 >= e0) goto done;
    e = e0 * STEP + N1;  loop: BODY; V += STEP; if (V cond e) goto loop;

The runtime calls emitted are `omp_get_num_threads`,
`omp_get_thread_num`, and the trailing `GOMP_barrier` unless the return
marker carries nowait.  The computation is split into `nochunk_n` (the
iteration count), `nochunk_q` (the block length) and the record of all
per-thread values. -/
def nochunk_n (condLT : Bool) (n1 n2 step : Int) : Int :=
  Int.tdiv (step + (if condLT then (-1 : Int) else 1) + n2 - n1) step

/-- The per-thread block length `q = n / nthreads`, rounded up by one
exactly when the truncating division left a remainder
(`q += (q * nthreads != n)`). -/
def nochunk_q (condLT : Bool) (n1 n2 step nthreads : Int) : Int :=
  Int.tdiv (nochunk_n condLT n1 n2 step) nthreads
    + (if Int.tdiv (nochunk_n condLT n1 n2 step) nthreads * nthreads
          ≠ nochunk_n condLT n1 n2 step
       then 1 else 0)

def expand_omp_for_static_nochunk (condLT : Bool)
    (n1 n2 step nthreads tid : Int) (nowait : Bool) : StaticNochunkVals :=
  let n := nochunk_n condLT n1 n2 step
  let q := nochunk_q condLT n1 n2 step nthreads
  let s0 := q * tid
  let e0 := min (s0 + q) n
  { n := n, q := q, s0 := s0, e0 := e0
    v0 := s0 * step + n1, e := e0 * step + n1
    calls := [CallId.omp_get_num_threads, CallId.omp_get_thread_num]
      ++ (if nowait then [] else [CallId.gomp_barrier]) }

/-- The loop's comparison in its original direction. -/
def loop_cond (condLT : Bool) (x y : Int) : Prop :=
  if condLT then x < y else y < x

/-- `q` is the mathematical ceiling of `d / s`, stated through its
characterizing inequalities (`q - 1 < d / s ≤ q`, multiplied out by the
sign of `s`). -/
def IsCeilOf (q d s : Int) : Prop :=
  if 0 < s then s * (q - 1) < d ∧ d ≤ s * q
  else s * q ≤ d ∧ d < s * (q - 1)

instance (q d s : Int) : Decidable (IsCeilOf q d s) := by
  unfold IsCeilOf
  infer_instance

/-- The positive-step form `(d + s - 1) tdiv s` is the ceiling of `d / s`
whenever its numerator is nonnegative. -/
theorem tdiv_ceil_pos {d s : Int} (hs : 0 < s) (hd : 0 ≤ d + s - 1) :
    IsCeilOf (Int.tdiv (d + s - 1) s) d s := by
  rw [Int.tdiv_eq_ediv hd (le_of_lt hs)]
  have hqr := Int.ediv_add_emod (d + s - 1) s
  have hr0 : 0 ≤ (d + s - 1) % s := Int.emod_nonneg _ (by omega)
  have hrs : (d + s - 1) % s < s := Int.emod_lt_of_pos _ hs
  unfold IsCeilOf
  rw [if_pos hs]
  constructor
  · have e1 : s * ((d + s - 1) / s - 1) = s * ((d + s - 1) / s) - s := by ring
    linarith
  · linarith

/-- The negative-step form `(d + s + 1) tdiv s` is the ceiling of `d / s`
whenever its numerator is nonpositive. -/
theorem tdiv_ceil_neg {d s : Int} (hs : s < 0) (hd : d + s + 1 ≤ 0) :
    IsCeilOf (Int.tdiv (d + s + 1) s) d s := by
  rw [← Int.neg_tdiv_neg, Int.tdiv_eq_ediv (by omega) (by omega)]
  have hqr := Int.ediv_add_emod (-(d + s + 1)) (-s)
  have hr0 : 0 ≤ (-(d + s + 1)) % (-s) := Int.emod_nonneg _ (by omega)
  have hrs : (-(d + s + 1)) % (-s) < -s := Int.emod_lt_of_pos _ (by omega)
  unfold IsCeilOf
  rw [if_neg (by omega : ¬ 0 < s)]
  constructor
  · have e1 : s * ((-(d + s + 1)) / (-s)) = -((-s) * ((-(d + s + 1)) / (-s))) := by
      ring
    linarith
  · have e1 : s * ((-(d + s + 1)) / (-s) - 1)
        = -((-s) * ((-(d + s + 1)) / (-s))) - s := by ring
    linarith

/-- The rounded-up `q` computed by the partition block is the ceiling of
`n / nthreads`. -/
theorem q_ceil (n nthreads : Int) (hn : 0 ≤ n) (ht : 0 < nthreads) :
    IsCeilOf
      (Int.tdiv n nthreads + (if Int.tdiv n nthreads * nthreads ≠ n then 1 else 0))
      n nthreads := by
  rw [Int.tdiv_eq_ediv hn (le_of_lt ht)]
  have hqr := Int.ediv_add_emod n nthreads
  have hr0 : 0 ≤ n % nthreads := Int.emod_nonneg _ (by omega)
  have hrs : n % nthreads < nthreads := Int.emod_lt_of_pos _ ht
  unfold IsCeilOf
  rw [if_pos ht]
  by_cases hz : n / nthreads * nthreads ≠ n
  · rw [if_pos hz]
    have hrpos : 0 < n % nthreads := by
      rcases lt_or_eq_of_le hr0 with h | h
      · exact h
      · exact absurd (by linarith [mul_comm (n / nthreads) nthreads]) hz
    constructor
    · have e1 : nthreads * (n / nthreads + 1 - 1) = nthreads * (n / nthreads) := by
        ring
      linarith
    · have e1 : nthreads * (n / nthreads + 1)
          = nthreads * (n / nthreads) + nthreads := by ring
      linarith
  · push_neg at hz
    rw [if_neg (by simpa using hz)]
    have hz' : nthreads * (n / nthreads) = n := by
      rw [mul_comm]
      exact hz
    constructor
    · have e1 : nthreads * (n / nthreads + 0 - 1)
          = nthreads * (n / nthreads) - nthreads := by ring
      linarith
    · have e1 : nthreads * (n / nthreads + 0) = nthreads * (n / nthreads) := by
        ring
      linarith

/-- Each iteration index in `[0, n)` falls in exactly one thread's
half-open block `[q * tid, min (q * tid + q, n))`. -/
theorem block_partition (q nt n i : Int) (hq : 0 < q) (_hnt : 0 < nt)
    (hcov : n ≤ nt * q) (h0 : 0 ≤ i) (hin : i < n) :
    ∃! t : Int, 0 ≤ t ∧ t < nt ∧ q * t ≤ i ∧ i < min (q * t + q) n := by
  refine ⟨i / q, ⟨?_, ?_, ?_, ?_⟩, ?_⟩
  · exact Int.ediv_nonneg h0 (le_of_lt hq)
  · exact (Int.ediv_lt_iff_lt_mul hq).mpr (by linarith)
  · have h := Int.ediv_mul_le i (by omega : q ≠ 0)
    have e1 : i / q * q = q * (i / q) := by ring
    linarith
  · refine lt_min ?_ hin
    have h := Int.lt_ediv_add_one_mul_self i hq
    have e1 : (i / q + 1) * q = q * (i / q) + q := by ring
    linarith
  · rintro t' ⟨ht0, htn, hle, hlt⟩
    have hlt' : i < q * t' + q := lt_of_lt_of_le hlt (min_le_left _ _)
    have h1 : t' ≤ i / q := by
      refine (Int.le_ediv_iff_mul_le hq).mpr ?_
      have e1 : t' * q = q * t' := by ring
      linarith
    have h2 : i / q < t' + 1 := by
      refine (Int.ediv_lt_iff_lt_mul hq).mpr ?_
      have e1 : (t' + 1) * q = q * t' + q := by ring
      linarith
    omega

/-! ## Theorems for claims C10, C2, C1 -/

/-- Claim C10: when optimization is enabled, a parallel directive with an
empty body and no copyin clause is replaced by an empty statement during
scanning — and exactly then — and for it no context, child function or
communication record is created (so no runtime call can later be emitted
for it, the directive being gone). -/
theorem c10_empty_parallel_deleted (optimize : Nat) (bodyEmpty hasCopyin : Bool) :
    ((scan_omp_parallel optimize bodyEmpty hasCopyin).stmtReplacedByEmpty = true
      ↔ 0 < optimize ∧ bodyEmpty = true ∧ hasCopyin = false)
    ∧ ((scan_omp_parallel optimize bodyEmpty hasCopyin).stmtReplacedByEmpty = true
        → (scan_omp_parallel optimize bodyEmpty hasCopyin).contextsCreated = 0
          ∧ (scan_omp_parallel optimize bodyEmpty hasCopyin).childFunctionsCreated = 0
          ∧ (scan_omp_parallel optimize bodyEmpty hasCopyin).recordTypesCreated = 0) := by
  by_cases h : 0 < optimize ∧ bodyEmpty = true ∧ hasCopyin = false
  · constructor
    · simp [scan_omp_parallel, h]
    · intro _
      simp [scan_omp_parallel, h]
  · constructor
    · simp [scan_omp_parallel, h]
    · intro hrep
      exfalso
      have : (scan_omp_parallel optimize bodyEmpty hasCopyin).stmtReplacedByEmpty = false := by
        simp [scan_omp_parallel, h]
      rw [hrep] at this
      exact Bool.true_eq_false ▸ this

/-- Claim C2, counterexample: on a target whose labels may contain dots
(the default configuration, `NO_DOT_IN_LABEL` undefined), the generated
name for outer function `foo` and counter 0 is `foo.omp_fn.0` — the
underscore of the claimed suffix `_omp_fn.<N>` has been overwritten with a
dot, so the name is not `foo_omp_fn.0`. -/
theorem c2_name_counterexample :
    create_omp_child_function_name "foo" false false 0 = "foo.omp_fn.0"
    ∧ create_omp_child_function_name "foo" false false 0 ≠ "foo" ++ "_omp_fn." ++ toString 0 := by
  constructor
  · rfl
  · decide

/-- Claim C2, amended: a scanned (non-deleted) parallel region creates
exactly one child function; the child function has exactly one pointer
parameter, void return type and internal linkage
(`TREE_PUBLIC = 0`, `TREE_STATIC = 1`); and its name is the enclosing
function's assembler name with the suffix `.omp_fn.<N>` when the target
allows dots in labels (`$omp_fn.<N>` when only dollars are allowed, and
the claimed `_omp_fn.<N>` only when the target allows neither). -/
theorem c2_child_function_shape (optimize : Nat) (bodyEmpty hasCopyin : Bool)
    (outer : String) (n : Nat) :
    ((scan_omp_parallel optimize bodyEmpty hasCopyin).stmtReplacedByEmpty = false
      → (scan_omp_parallel optimize bodyEmpty hasCopyin).childFunctionsCreated = 1)
    ∧ (create_omp_child_function outer false false n).retType = CType.void
    ∧ (create_omp_child_function outer false false n).paramTypes = [CType.ptr]
    ∧ (create_omp_child_function outer false false n).treePublic = false
    ∧ (create_omp_child_function outer false false n).treeStatic = true
    ∧ (create_omp_child_function outer false false n).name
        = outer ++ ".omp_fn." ++ toString n
    ∧ (create_omp_child_function outer true false n).name
        = outer ++ "$omp_fn." ++ toString n
    ∧ (create_omp_child_function outer true true n).name
        = outer ++ "_omp_fn." ++ toString n := by
  refine ⟨?_, rfl, rfl, rfl, rfl, ?_, ?_, ?_⟩
  · intro h
    by_cases hc : 0 < optimize ∧ bodyEmpty = true ∧ hasCopyin = false
    · exfalso
      have : (scan_omp_parallel optimize bodyEmpty hasCopyin).stmtReplacedByEmpty = true := by
        simp [scan_omp_parallel, hc]
      rw [h] at this
      exact Bool.false_eq_true ▸ this
    · simp [scan_omp_parallel, hc]
  · simp [create_omp_child_function, create_omp_child_function_name,
      child_fn_name_stem, asm_format_private_name, String.append_assoc]
  · simp [create_omp_child_function, create_omp_child_function_name,
      child_fn_name_stem, asm_format_private_name, String.append_assoc]
  · simp [create_omp_child_function, create_omp_child_function_name,
      child_fn_name_stem, asm_format_private_name, String.append_assoc]

/-- Claim C2, witness: instantiating the amended theorem at a concrete
scanned parallel (`optimize = 2`, nonempty body) and outer name `main`,
counter 3. -/
theorem c2_child_function_shape_witness :
    (scan_omp_parallel 2 false false).stmtReplacedByEmpty = false
    ∧ ((scan_omp_parallel 2 false false).stmtReplacedByEmpty = false
        → (scan_omp_parallel 2 false false).childFunctionsCreated = 1)
    ∧ (create_omp_child_function "main" false false 3).name = "main.omp_fn.3" :=
  ⟨by decide, (c2_child_function_shape 2 false false "main" 3).1,
    ((c2_child_function_shape 2 false false "main" 3).2.2.2.2.2).1⟩

/-- Claim C1, counterexample: for a combined parallel+loop region with
dynamic schedule, the first emitted call is
`GOMP_parallel_loop_dynamic_start`, not `GOMP_parallel_start`, so the
claimed call sequence does not hold for every parallel construct. -/
theorem c1_combined_start_counterexample :
    (expand_parallel_call
      { isCombined := true, innerIsSections := false,
        innerSched := .sched_dynamic, hasIf := false, ifCond := false,
        req := .absent, hasDataArg := true,
        wsArgs := [0, 100, 1, 8] }).map Prod.fst
      = [CallId.parallel_loop_start .sched_dynamic, CallId.child_fn_call,
         CallId.parallel_end]
    ∧ CallId.parallel_loop_start .sched_dynamic ≠ CallId.parallel_start := by
  constructor
  · rfl
  · intro h
    cases h

/-- Claim C1, amended: for every parallel construct that is not a combined
parallel+workshare region and whose communication record exists, the
split point receives exactly
`GOMP_parallel_start (&child_fn, &sender_record, num_threads_value)`,
then `child_fn (&sender_record)`, then `GOMP_parallel_end ()`; the
emitted num_threads value equals `cond ? requested : 1u` when an
`if (cond)` clause is present and the requested value otherwise, the
requested value being 0 when no num_threads clause exists.  (A combined
region instead uses the combined start builtin with the worksharing
arguments appended; the two following calls are unchanged.) -/
theorem c1_parallel_call_sequence (inp : ParallelCallInput)
    (hnc : inp.isCombined = false) (hdata : inp.hasDataArg = true)
    (hws : inp.wsArgs = []) :
    expand_parallel_call inp
      = [ (CallId.parallel_start,
            [ArgVal.addr_fn, ArgVal.addr_data,
             ArgVal.num_threads (emitted_num_threads inp)]),
          (CallId.child_fn_call, [ArgVal.addr_data]),
          (CallId.parallel_end, []) ]
    ∧ emitted_num_threads inp
        = (if inp.hasIf then (if inp.ifCond then inp.req.value else 1)
           else inp.req.value)
    ∧ NumThreadsReq.value .absent = 0 := by
  refine ⟨?_, ?_, rfl⟩
  · simp [expand_parallel_call, parallel_start_ix, parallel_data_arg, hnc,
      hdata, hws]
  · cases hif : inp.hasIf
    · simp [emitted_num_threads, hif]
    · cases hreq : inp.req
      · simp [emitted_num_threads, hif, hreq, NumThreadsReq.zerop,
          NumThreadsReq.value]
      · simp [emitted_num_threads, hif, hreq, NumThreadsReq.zerop,
          NumThreadsReq.value]
      · simp [emitted_num_threads, hif, hreq, NumThreadsReq.zerop,
          NumThreadsReq.value]

/-- Claim C1, witness: the amended theorem applied to a concrete
non-combined parallel with `if (cond)` true at run time and
`num_threads (4)`. -/
theorem c1_parallel_call_sequence_witness :
    (({ isCombined := false, innerIsSections := false,
        innerSched := .sched_static, hasIf := true, ifCond := true,
        req := .expr 4, hasDataArg := true, wsArgs := [] }
          : ParallelCallInput).isCombined = false)
    ∧ emitted_num_threads
        { isCombined := false, innerIsSections := false,
          innerSched := .sched_static, hasIf := true, ifCond := true,
          req := .expr 4, hasDataArg := true, wsArgs := [] }
        = (if true then (if true then 4 else 1) else 4) :=
  ⟨rfl,
    (c1_parallel_call_sequence
      { isCombined := false, innerIsSections := false,
        innerSched := .sched_static, hasIf := true, ifCond := true,
        req := .expr 4, hasDataArg := true, wsArgs := [] }
      rfl rfl rfl).2.1⟩

/-! ## Theorems for claims C5, C7 -/

/-- The loop case of `workshare_safe_to_combine_p`, spelled out: the
extracted chunk is non-invariant exactly when a chunk clause with a
non-invariant expression is present, the defaulted chunks being
constants. -/
theorem workshare_safe_for_iff (w : InnerWs) (hf : w.typ = .rFor) :
    workshare_safe_to_combine_p w = true ↔
      (w.n1Inv = true ∧ w.n2Inv = true ∧ w.stepInv = true
        ∧ w.chunkClause ≠ some false) := by
  cases hch : w.chunkClause with
  | none =>
    simp only [workshare_safe_to_combine_p, hf, extract_chunk, hch]
    constructor
    · intro h
      rcases Bool.and_eq_true_iff.mp h with ⟨h12, _⟩
      rcases Bool.and_eq_true_iff.mp h12 with ⟨h1, h3⟩
      rcases Bool.and_eq_true_iff.mp h1 with ⟨ha, hb⟩
      exact ⟨ha, hb, h3, by simp⟩
    · rintro ⟨h1, h2, h3, _⟩
      simp only [h1, h2, h3, Bool.and_self, Bool.true_and]
      split <;> simp_all
  | some inv =>
    cases inv <;>
      simp only [workshare_safe_to_combine_p, hf, extract_chunk, hch] <;>
      constructor
    · intro h
      simp at h
    · rintro ⟨_, _, _, hc⟩
      exact absurd rfl hc
    · intro h
      simp at h
      exact ⟨by simp [h], by simp [h], by simp [h], by simp⟩
    · rintro ⟨h1, h2, h3, _⟩
      simp [h1, h2, h3]

/-- Claim C5: a parallel region is marked combined exactly when its body
is a single worksharing loop or sections construct (the front end's
combined-pragma flag, or the worksharing statement alone in its entry
block and the parallel return alone in the exit block), in perfect
nesting (parallel entry flows directly to worksharing entry, worksharing
exit directly to parallel exit, with the exit and continue blocks
present), whose loop init, bound, step and chunk are loop-invariant
constants; and a loop with static schedule, with no schedule clause, or
with an ordered clause is rejected even then. -/
theorem c5_combined_detection (r : ParRegion) (w : InnerWs)
    (h : r.inner = some w) :
    determine_parallel_type r = true ↔
      ((w.typ = .rFor ∨ w.typ = .rSections)
        ∧ (r.parallelCombinedPragma = true
            ∨ (r.wsEntrySoleStmt = true ∧ r.parExitSoleStmt = true))
        ∧ r.typIsParallel = true
        ∧ r.exitPresent = true ∧ w.exitPresent = true ∧ w.contPresent = true
        ∧ r.parEntryFlowsToWsEntry = true ∧ r.wsExitFlowsToParExit = true
        ∧ (w.typ = .rFor →
            (w.n1Inv = true ∧ w.n2Inv = true ∧ w.stepInv = true
              ∧ w.chunkClause ≠ some false))
        ∧ ¬(w.typ = .rFor
            ∧ (w.schedClause = none ∨ w.schedClause = some .sched_static
               ∨ w.ordered = true))) := by
  simp only [determine_parallel_type, h]
  constructor
  · intro hres
    split at hres
    · exact absurd hres (by simp)
    · split at hres
      · exact absurd hres (by simp)
      · split at hres
        · rename_i hpresent hkind hflow
          split at hres
          · exact absurd hres (by simp)
          · rename_i hsched
            push_neg at hpresent hkind
            simp only [Bool.ne_false_iff] at hpresent hkind
            rcases Bool.and_eq_true_iff.mp hflow with ⟨hf1, hf4⟩
            rcases Bool.and_eq_true_iff.mp hf1 with ⟨hf2, hsafe⟩
            rcases Bool.and_eq_true_iff.mp hf2 with ⟨hpar, hws⟩
            have hkinds : w.typ = .rFor ∨ w.typ = .rSections := by
              by_cases ht : w.typ = .rFor
              · exact Or.inl ht
              · exact Or.inr (hkind.2 ht)
            refine ⟨hkinds, ?_, hkind.1, hpresent.1, hpresent.2.1,
              hpresent.2.2, hpar, hws, ?_, hsched⟩
            · rcases Bool.or_eq_true_iff.mp hf4 with hpc | hsol
              · exact Or.inl hpc
              · exact Or.inr (Bool.and_eq_true_iff.mp hsol)
            · intro hfor
              exact (workshare_safe_for_iff w hfor).mp hsafe
        · rename_i hpresent hkind hflow
          exact absurd hres (by simp)
  · rintro ⟨hkinds, hbody, htp, hep, hwe, hwc, hpar, hws, hsafe, hsched⟩
    rw [if_neg (by simp [hep, hwe, hwc]), if_neg (by
      push_neg
      simp only [Bool.ne_false_iff]
      refine ⟨htp, ?_⟩
      rcases hkinds with hk | hk <;> simp [hk])]
    have hsafeb : workshare_safe_to_combine_p w = true := by
      rcases hkinds with hk | hk
      · exact (workshare_safe_for_iff w hk).mpr (hsafe hk)
      · simp [workshare_safe_to_combine_p, hk]
    rw [if_pos (by
      rcases hbody with hpc | ⟨h1, h2⟩
      · simp [hpar, hws, hsafeb, hpc]
      · simp [hpar, hws, hsafeb, h1, h2])]
    exact if_neg hsched

/-- Claim C5, witness: a concrete parallel region wrapping a
dynamic-schedule loop with invariant parameters is combined; the theorem
applied there. -/
theorem c5_combined_detection_witness :
    determine_parallel_type
        { typIsParallel := true, exitPresent := true,
          inner := some
            { typ := .rFor, exitPresent := true, contPresent := true,
              schedClause := some .sched_dynamic, ordered := false,
              n1Inv := true, n2Inv := true, stepInv := true,
              chunkClause := some true },
          parEntryFlowsToWsEntry := true, wsExitFlowsToParExit := true,
          parallelCombinedPragma := true, wsEntrySoleStmt := false,
          parExitSoleStmt := false } = true :=
  (c5_combined_detection
    { typIsParallel := true, exitPresent := true,
      inner := some
        { typ := .rFor, exitPresent := true, contPresent := true,
          schedClause := some .sched_dynamic, ordered := false,
          n1Inv := true, n2Inv := true, stepInv := true,
          chunkClause := some true },
      parEntryFlowsToWsEntry := true, wsExitFlowsToParExit := true,
      parallelCombinedPragma := true, wsEntrySoleStmt := false,
      parExitSoleStmt := false }
    { typ := .rFor, exitPresent := true, contPresent := true,
      schedClause := some .sched_dynamic, ordered := false,
      n1Inv := true, n2Inv := true, stepInv := true,
      chunkClause := some true } rfl).mpr (by decide)

/-- Claim C7: every reduction clone is initialized to the operator's
neutral element — 0 for plus, minus, bit-or, bit-xor and logical-or; 1
for times and logical-and; all-bits-set for bit-and; the type minimum
(negative infinity for floats honoring infinities) for max; the type
maximum (positive infinity) for min — and a minus reduction merges its
partial results with plus. -/
theorem c7_reduction_neutral (ty : ScalarType) :
    omp_reduction_init .plus ty = .intVal 0
    ∧ omp_reduction_init .minus ty = .intVal 0
    ∧ omp_reduction_init .bit_ior ty = .intVal 0
    ∧ omp_reduction_init .bit_xor ty = .intVal 0
    ∧ omp_reduction_init .truth_or ty = .intVal 0
    ∧ omp_reduction_init .truth_orif ty = .intVal 0
    ∧ omp_reduction_init .mult ty = .intVal 1
    ∧ omp_reduction_init .truth_and ty = .intVal 1
    ∧ omp_reduction_init .truth_andif ty = .intVal 1
    ∧ omp_reduction_init .bit_and ty = .intVal (-1)
    ∧ (ty.isFloat = false → omp_reduction_init .rmax ty = .intVal ty.intMin)
    ∧ (ty.isFloat = true → ty.honorsInfinities = true →
        omp_reduction_init .rmax ty = .negInf)
    ∧ (ty.isFloat = true → ty.honorsInfinities = false →
        omp_reduction_init .rmax ty = .mostNegFinite)
    ∧ (ty.isFloat = false → omp_reduction_init .rmin ty = .intVal ty.intMax)
    ∧ (ty.isFloat = true → ty.honorsInfinities = true →
        omp_reduction_init .rmin ty = .posInf)
    ∧ (ty.isFloat = true → ty.honorsInfinities = false →
        omp_reduction_init .rmin ty = .mostPosFinite)
    ∧ reduction_merge_code .minus = .plus
    ∧ (∀ op, op ≠ RedOp.minus → reduction_merge_code op = op) := by
  refine ⟨rfl, rfl, rfl, rfl, rfl, rfl, rfl, rfl, rfl, rfl,
    ?_, ?_, ?_, ?_, ?_, ?_, rfl, ?_⟩
  · intro hf
    simp [omp_reduction_init, hf]
  · intro hf hi
    simp [omp_reduction_init, hf, hi]
  · intro hf hi
    simp [omp_reduction_init, hf, hi]
  · intro hf
    simp [omp_reduction_init, hf]
  · intro hf hi
    simp [omp_reduction_init, hf, hi]
  · intro hf hi
    simp [omp_reduction_init, hf, hi]
  · intro op hop
    simp [reduction_merge_code, hop]

/-! ## Theorems for claims C8, C9 -/

/-- Claim C8, counterexample: an exit block holding a non-label statement,
then a label, then the parallel return still stamps its predecessor's
worksharing return — the code inspects only the statement immediately
before the parallel return, so "the only statement between it and the
parallel return is a label" is not required. -/
theorem c8_elision_counterexample :
    remove_exit_barrier (some [GStmt.assign, GStmt.label])
        [[GStmt.omp_return false]]
      = [[GStmt.omp_return true]]
    ∧ [GStmt.assign, GStmt.label] ≠ [GStmt.label] := by
  exact ⟨rfl, by decide⟩

/-- Claim C8, amended: for a parallel region with a reachable exit block,
a worksharing return ending a predecessor block of the exit is stamped
nowait exactly when the parallel's return marker is the first statement
of its block or the statement immediately preceding it is a label (any
statements further up the exit block are not inspected); otherwise no
predecessor is stamped, and a region without an exit block stamps
nothing. -/
theorem c8_barrier_elision (before : List GStmt) (preds : List (List GStmt))
    (i : Nat) (blk : List GStmt)
    (hget : preds[i]? = some blk)
    (hlast : blk.getLast? = some (GStmt.omp_return false)) :
    (((remove_exit_barrier (some before) preds)[i]?
        = some (blk.dropLast ++ [GStmt.omp_return true]))
      ↔ (before.getLast? = none ∨ before.getLast? = some GStmt.label))
    ∧ (¬(before.getLast? = none ∨ before.getLast? = some GStmt.label)
        → (remove_exit_barrier (some before) preds)[i]? = some blk)
    ∧ remove_exit_barrier none preds = preds := by
  have hstamp : set_ws_nowait blk = blk.dropLast ++ [GStmt.omp_return true] := by
    unfold set_ws_nowait
    rw [hlast]
  by_cases hcond : before.getLast? = none ∨ before.getLast? = some GStmt.label
  · have hrun : remove_exit_barrier (some before) preds = preds.map set_ws_nowait := by
      rcases hcond with h0 | h1
      · show (match before.getLast? with
          | some s => if s = GStmt.label then preds.map set_ws_nowait else preds
          | none => preds.map set_ws_nowait) = preds.map set_ws_nowait
        rw [h0]
      · show (match before.getLast? with
          | some s => if s = GStmt.label then preds.map set_ws_nowait else preds
          | none => preds.map set_ws_nowait) = preds.map set_ws_nowait
        rw [h1]
        rfl
    refine ⟨iff_of_true ?_ hcond, fun hn => absurd hcond hn, rfl⟩
    rw [hrun, List.getElem?_map, hget]
    show some (set_ws_nowait blk) = some (blk.dropLast ++ [GStmt.omp_return true])
    rw [hstamp]
  · push_neg at hcond
    obtain ⟨h0, h1⟩ := hcond
    have hrun : remove_exit_barrier (some before) preds = preds := by
      show (match before.getLast? with
        | some s => if s = GStmt.label then preds.map set_ws_nowait else preds
        | none => preds.map set_ws_nowait) = preds
      cases hbl : before.getLast? with
      | none => exact absurd hbl h0
      | some s =>
        have hs : s ≠ GStmt.label := fun hs => h1 (hs ▸ hbl)
        show (if s = GStmt.label then preds.map set_ws_nowait else preds) = preds
        rw [if_neg hs]
    refine ⟨iff_of_false ?_ (by push_neg; exact ⟨h0, h1⟩),
      fun _ => by rw [hrun, hget], rfl⟩
    intro habs
    rw [hrun, hget] at habs
    have hinj : blk = blk.dropLast ++ [GStmt.omp_return true] :=
      Option.some_inj.mp habs
    have hlast2 : (blk.dropLast ++ [GStmt.omp_return true]).getLast?
        = some (GStmt.omp_return false) := by
      rw [← hinj]
      exact hlast
    rw [List.getLast?_concat] at hlast2
    simp at hlast2

/-- Claim C8, witness: applying the amended theorem where the parallel
return is preceded by exactly one label and the single predecessor ends
in a worksharing return. -/
theorem c8_barrier_elision_witness :
    ([[GStmt.omp_return false]] : List (List GStmt))[0]? = some [GStmt.omp_return false]
    ∧ ((remove_exit_barrier (some [GStmt.label]) [[GStmt.omp_return false]])[0]?
          = some (([GStmt.omp_return false] : List GStmt).dropLast
              ++ [GStmt.omp_return true])
        ↔ (([GStmt.label] : List GStmt).getLast? = none
            ∨ ([GStmt.label] : List GStmt).getLast? = some GStmt.label)) :=
  ⟨rfl,
    (c8_barrier_elision [GStmt.label] [[GStmt.omp_return false]] 0
      [GStmt.omp_return false] rfl rfl).1⟩

/-- Claim C9, counterexample: a branch enclosed by construct 1 jumping to
a label enclosed by the sibling construct 2.  The chains are consistent
(they share no construct), the destination's chain is not a prefix of the
branch's chain — the claim therefore predicts "invalid entry" — yet the
code reports "invalid exit" (omp-low.c prefers "exit" unless the label's
chain is nested within the branch's context). -/
theorem c9_sibling_counterexample :
    (diagnose_sb_0 (some 1) [2]).1 = SbVerdict.invalid_exit
    ∧ (diagnose_sb_0 (some 1) [2]).2 = true
    ∧ ChainsConsistent [1] [2]
    ∧ ¬ ([2] : List Nat) <:+ [1] := by
  refine ⟨rfl, rfl, by decide, ?_⟩
  rintro ⟨t, ht⟩
  cases t with
  | nil => simp at ht
  | cons a t' =>
    have hlen := congrArg List.length ht
    simp at hlen

/-- Claim C9, amended: comparing a branch's chain of enclosing constructs
(innermost first, the code passing its head to `diagnose_sb_0`) with the
destination label's chain, and assuming both chains come from one
construct tree: no diagnostic is issued exactly when the chains are
equal; "invalid entry" is reported exactly when the branch's chain is a
proper suffix of the destination's (the branch jumps into constructs
enclosing nothing it is in, including from outside any construct); every
other mismatch — leaving constructs, or a jump between sibling
constructs — reports "invalid exit"; and the offending branch is replaced
by a no-op exactly when a diagnostic is issued. -/
theorem c9_sb_diagnostic (bc lc : List Nat) (hcons : ChainsConsistent bc lc) :
    ((diagnose_sb_0 bc.head? lc).1 = SbVerdict.no_error ↔ lc = bc)
    ∧ ((diagnose_sb_0 bc.head? lc).1 = SbVerdict.invalid_entry
        ↔ (lc ≠ bc ∧ bc <:+ lc))
    ∧ ((diagnose_sb_0 bc.head? lc).1 = SbVerdict.invalid_exit
        ↔ (lc ≠ bc ∧ ¬ bc <:+ lc))
    ∧ ((diagnose_sb_0 bc.head? lc).2 = true ↔ lc ≠ bc) := by
  by_cases heq : lc.head? = bc.head?
  · have hlc : lc = bc := by
      have h := hcons 0 (Nat.zero_le _) (by simpa using heq)
      simpa using h
    subst hlc
    simp [diagnose_sb_0]
  · have hne : lc ≠ bc := fun h => heq (by rw [h])
    cases bc with
    | nil =>
      have hg : diagnose_sb_0 (List.head? ([] : List Nat)) lc
          = (SbVerdict.invalid_entry, true) := by
        unfold diagnose_sb_0
        rw [if_neg heq]
        rfl
      refine ⟨?_, ?_, ?_, ?_⟩ <;> rw [hg]
      · simp [hne]
      · simp [hne, List.nil_suffix]
      · simp [List.nil_suffix]
      · simp [hne]
    | cons b bct =>
      by_cases hmem : b ∈ lc
      · obtain ⟨n, hn⟩ := List.mem_iff_getElem?.mp hmem
        have hlen : n < lc.length := (List.getElem?_eq_some_iff.mp hn).1
        have hdropeq : lc.drop n = b :: bct := by
          refine hcons n (Nat.le_of_lt hlen) ?_
          rw [List.head?_eq_getElem?, List.getElem?_drop, Nat.add_zero, hn]
          rfl
        have hsuf : (b :: bct) <:+ lc := hdropeq ▸ List.drop_suffix n lc
        have hg : diagnose_sb_0 (List.head? (b :: bct)) lc
            = (SbVerdict.invalid_entry, true) := by
          unfold diagnose_sb_0
          rw [if_neg heq]
          show (if b ∈ lc then ((SbVerdict.invalid_entry, true) : SbVerdict × Bool)
            else (SbVerdict.invalid_exit, true)) = (SbVerdict.invalid_entry, true)
          rw [if_pos hmem]
        refine ⟨?_, ?_, ?_, ?_⟩ <;> rw [hg] <;> simp [hne, hsuf]
      · have hnsuf : ¬ (b :: bct) <:+ lc := fun hsuf =>
          hmem (hsuf.subset (List.mem_cons_self b bct))
        have hg : diagnose_sb_0 (List.head? (b :: bct)) lc
            = (SbVerdict.invalid_exit, true) := by
          unfold diagnose_sb_0
          rw [if_neg heq]
          show (if b ∈ lc then ((SbVerdict.invalid_entry, true) : SbVerdict × Bool)
            else (SbVerdict.invalid_exit, true)) = (SbVerdict.invalid_exit, true)
          rw [if_neg hmem]
        refine ⟨?_, ?_, ?_, ?_⟩ <;> rw [hg] <;> simp [hne, hnsuf]

/-! ## Theorems for claim C4 -/

/-- Claim C4, counterexample: a static-schedule loop with no chunk and no
ordered clause whose continue block is absent (the loop body never reaches
the loop latch) is expanded through the runtime path
(`GOMP_loop_static_start` at index 0), not open-coded — the open-coded
path additionally requires a continue block. -/
theorem c4_broken_loop_counterexample :
    expand_omp_for
        { sched := .sched_static, ordered := false, userChunk := none } false
      = LoopExpansion.generic 0 0
    ∧ LoopExpansion.generic 0 0 ≠ LoopExpansion.open_coded_nochunk := by
  exact ⟨rfl, by decide⟩

/-- The defaulted chunk of a plain (non-ordered) static schedule is the
user chunk unchanged. -/
theorem chunk_after_default_static (uc : Option Int) :
    chunk_after_default .sched_static false uc = uc := by
  cases uc <;> rfl

/-- Claim C4, amended: expansion chooses an open-coded path exactly for
static schedule without ordered when the loop has a continue block (the
no-chunk variant exactly when additionally no chunk clause exists); every
other loop uses the runtime table at index
`schedule_kind + 4 * has_ordered` for both the start and next builtins,
and the generic expansion of a non-combined unbroken loop emits exactly
one `_start` call and exactly one `_next` call (a combined loop replaces
the entry `_start` with a `_next`). -/
theorem c4_schedule_selection (fd : ForFd) (contPresent : Bool) :
    ((expand_omp_for fd contPresent = LoopExpansion.open_coded_nochunk
        ∨ expand_omp_for fd contPresent = LoopExpansion.open_coded_chunk)
      ↔ (fd.sched = .sched_static ∧ fd.ordered = false ∧ contPresent = true))
    ∧ (expand_omp_for fd contPresent = LoopExpansion.open_coded_nochunk
        ↔ (fd.sched = .sched_static ∧ fd.ordered = false ∧ contPresent = true
            ∧ fd.userChunk = none))
    ∧ (¬(fd.sched = .sched_static ∧ fd.ordered = false ∧ contPresent = true)
        → expand_omp_for fd contPresent
            = LoopExpansion.generic
                (fd.sched.toNat + 4 * (if fd.ordered then 1 else 0))
                (fd.sched.toNat + 4 * (if fd.ordered then 1 else 0)))
    ∧ (∀ startIx nextIx : Nat, ∀ nowait : Bool,
        (expand_omp_for_generic_calls false false startIx nextIx nowait).countP
            (fun c => c.isLoopStart) = 1
        ∧ (expand_omp_for_generic_calls false false startIx nextIx nowait).countP
            (fun c => c.isLoopNext) = 1
        ∧ (expand_omp_for_generic_calls true false startIx nextIx nowait).countP
            (fun c => c.isLoopStart) = 0) := by
  have hcount : ∀ startIx nextIx : Nat, ∀ nowait : Bool,
      (expand_omp_for_generic_calls false false startIx nextIx nowait).countP
          (fun c => c.isLoopStart) = 1
      ∧ (expand_omp_for_generic_calls false false startIx nextIx nowait).countP
          (fun c => c.isLoopNext) = 1
      ∧ (expand_omp_for_generic_calls true false startIx nextIx nowait).countP
          (fun c => c.isLoopStart) = 0 := by
    intro startIx nextIx nowait
    cases nowait <;>
      simp [expand_omp_for_generic_calls, List.countP_cons, List.countP_nil,
        CallId.isLoopStart, CallId.isLoopNext]
  by_cases hcond : fd.sched = .sched_static ∧ fd.ordered = false ∧ contPresent = true
  · obtain ⟨h1, h2, h3⟩ := hcond
    refine ⟨?_, ?_, fun hn => absurd ⟨h1, h2, h3⟩ hn, hcount⟩
    · refine iff_of_true ?_ ⟨h1, h2, h3⟩
      cases huc : fd.userChunk with
      | none =>
        left
        simp [expand_omp_for, h1, h2, h3, chunk_after_default_static, huc]
      | some c =>
        right
        simp [expand_omp_for, h1, h2, h3, chunk_after_default_static, huc]
    · cases huc : fd.userChunk with
      | none => simp [expand_omp_for, h1, h2, h3, chunk_after_default_static, huc]
      | some c => simp [expand_omp_for, h1, h2, h3, chunk_after_default_static, huc]
  · have hgen : expand_omp_for fd contPresent
        = LoopExpansion.generic
            (fd.sched.toNat + 4 * (if fd.ordered then 1 else 0))
            (fd.sched.toNat + 4 * (if fd.ordered then 1 else 0)) := by
      simp [expand_omp_for, hcond]
    refine ⟨?_, ?_, fun _ => hgen, hcount⟩
    · rw [hgen]
      simp [hcond]
    · rw [hgen]
      constructor
      · intro h
        cases h
      · rintro ⟨h1, h2, h3, -⟩
        exact absurd ⟨h1, h2, h3⟩ hcond

/-- Claim C4, witness: a `dynamic(8)` ordered-free loop at a concrete
instance takes the runtime path at table index 1. -/
theorem c4_schedule_selection_witness :
    ¬(({ sched := .sched_dynamic, ordered := false, userChunk := some 8 }
        : ForFd).sched = .sched_static
      ∧ ({ sched := .sched_dynamic, ordered := false, userChunk := some 8 }
        : ForFd).ordered = false ∧ true = true)
    ∧ expand_omp_for
        { sched := .sched_dynamic, ordered := false, userChunk := some 8 } true
      = LoopExpansion.generic
          (SchedKind.toNat .sched_dynamic + 4 * (if false then 1 else 0))
          (SchedKind.toNat .sched_dynamic + 4 * (if false then 1 else 0)) :=
  ⟨by decide,
    (c4_schedule_selection
      { sched := .sched_dynamic, ordered := false, userChunk := some 8 }
      true).2.2.1 (by decide)⟩

/-- Claim C9, witness: a branch inside construct 7 within construct 5
jumping to a label further inside construct 3 — a proper entry — via the
amended theorem. -/
theorem c9_sb_diagnostic_witness :
    ChainsConsistent [5, 7] [3, 5, 7]
    ∧ ((diagnose_sb_0 ([5, 7] : List Nat).head? [3, 5, 7]).1
          = SbVerdict.invalid_entry
        ↔ (([3, 5, 7] : List Nat) ≠ [5, 7] ∧ [5, 7] <:+ [3, 5, 7])) :=
  ⟨by decide, (c9_sb_diagnostic [5, 7] [3, 5, 7] (by decide)).2.1⟩

/-! ## Theorems for claim C6 -/

/-- A 4-byte aligned atomic update `x = tmp + y` on a type that is not
integral or pointer (a float), on a machine supporting every sync
builtin. -/
def atomic_float_input : AtomicInput :=
  { sizeBytes := 4, alignBytes := 4, integralOrPointer := false,
    storeFollowsLoad := true,
    store := some
      { followedByAtomicStore := true, lhsIsStoredVal := true,
        rhsOp := some .op_plus, firstOperandIsLoaded := true,
        secondOperandIsLoaded := false },
    syncAdd := fun _ => true, syncAnd := fun _ => true,
    syncIor := fun _ => true, syncXor := fun _ => true,
    cas := fun _ => true }

/-- The same update on an integral type. -/
def atomic_fetch_input : AtomicInput :=
  { atomic_float_input with integralOrPointer := true }

/-- Claim C6, counterexample: a float atomic update whose stored value has
the supported shape `tmp + y`, with supported size 4, alignment 4 and
every machine operation available, is expanded as a compare-and-swap
loop, not as the fetch-op builtin — the claim's "if and only if" omits
the requirement that the type be integral or pointer. -/
theorem c6_float_counterexample :
    expand_omp_atomic atomic_float_input = AtomicStrategy.cas_loop
    ∧ (atomic_float_input.sizeBytes = 4 ∧ atomic_float_input.alignBytes = 4
        ∧ rhs_shape_supported atomic_float_input)
    ∧ AtomicStrategy.cas_loop ≠ AtomicStrategy.fetch_op := by
  refine ⟨by decide, ⟨rfl, rfl, ?_⟩, by decide⟩
  exact ⟨_, rfl, rfl, rfl, AtomicOp.op_plus, rfl, Or.inl rfl, rfl⟩

/-- Claim C6, amended: the fetch-op builtin is emitted if and only if the
stored value's right side has the shape `loaded OP expr` (or
`expr OP loaded` for commutative `OP`) with `OP` among plus,
pointer-plus, minus, bit-and, bit-or, bit-xor and the machine supporting
it, the element size a power of two at most 16 with alignment at least
the size, and — additionally to the claim — the type integral or pointer
and the store block the immediate successor of the load block; otherwise
the compare-and-swap loop is used when the size and alignment conditions
hold and the target has a compare-and-swap of that size; otherwise the
`GOMP_atomic_start`/`GOMP_atomic_end` bracket.  (Alignments are powers of
two.) -/
theorem c6_atomic_tiering (inp : AtomicInput) (j : Nat)
    (hal : inp.alignBytes = 2 ^ j) :
    (expand_omp_atomic inp = AtomicStrategy.fetch_op ↔
      ((inp.sizeBytes = 1 ∨ inp.sizeBytes = 2 ∨ inp.sizeBytes = 4
          ∨ inp.sizeBytes = 8 ∨ inp.sizeBytes = 16)
        ∧ inp.sizeBytes ≤ inp.alignBytes
        ∧ inp.integralOrPointer = true
        ∧ inp.storeFollowsLoad = true
        ∧ rhs_shape_supported inp))
    ∧ (expand_omp_atomic inp = AtomicStrategy.cas_loop ↔
      ((inp.sizeBytes = 1 ∨ inp.sizeBytes = 2 ∨ inp.sizeBytes = 4
          ∨ inp.sizeBytes = 8 ∨ inp.sizeBytes = 16)
        ∧ inp.sizeBytes ≤ inp.alignBytes
        ∧ inp.cas (exactLog2 inp.sizeBytes).toNat = true
        ∧ ¬(inp.integralOrPointer = true ∧ inp.storeFollowsLoad = true
            ∧ rhs_shape_supported inp)))
    ∧ (expand_omp_atomic inp = AtomicStrategy.mutex ↔
      (¬((inp.sizeBytes = 1 ∨ inp.sizeBytes = 2 ∨ inp.sizeBytes = 4
            ∨ inp.sizeBytes = 8 ∨ inp.sizeBytes = 16)
          ∧ inp.sizeBytes ≤ inp.alignBytes
          ∧ inp.integralOrPointer = true
          ∧ inp.storeFollowsLoad = true
          ∧ rhs_shape_supported inp)
        ∧ ¬((inp.sizeBytes = 1 ∨ inp.sizeBytes = 2 ∨ inp.sizeBytes = 4
            ∨ inp.sizeBytes = 8 ∨ inp.sizeBytes = 16)
          ∧ inp.sizeBytes ≤ inp.alignBytes
          ∧ inp.cas (exactLog2 inp.sizeBytes).toNat = true
          ∧ ¬(inp.integralOrPointer = true ∧ inp.storeFollowsLoad = true
              ∧ rhs_shape_supported inp)))) := by
  have hshape : expand_omp_atomic_fetch_op inp (exactLog2 inp.sizeBytes).toNat = true
      ↔ rhs_shape_supported inp :=
    expand_omp_atomic_fetch_op_iff inp (exactLog2 inp.sizeBytes).toNat
  by_cases hrange : 0 ≤ exactLog2 inp.sizeBytes ∧ exactLog2 inp.sizeBytes ≤ 4
  · have hszd := (exactLog2_range_iff inp.sizeBytes).mp hrange
    have halig : (exactLog2 inp.sizeBytes ≤ exactLog2 inp.alignBytes)
        ↔ inp.sizeBytes ≤ inp.alignBytes := by
      rw [hal]
      exact exactLog2_le_iff _ j hszd
    by_cases hali : exactLog2 inp.sizeBytes ≤ exactLog2 inp.alignBytes
    · have halb := halig.mp hali
      by_cases hfet : ((inp.integralOrPointer && inp.storeFollowsLoad)
          && expand_omp_atomic_fetch_op inp (exactLog2 inp.sizeBytes).toNat) = true
      · obtain ⟨hip, hbool⟩ := Bool.and_eq_true_iff.mp hfet
        obtain ⟨hint, hadj⟩ := Bool.and_eq_true_iff.mp hip
        have hsh := hshape.mp hbool
        have hrun : expand_omp_atomic inp = AtomicStrategy.fetch_op := by
          simp only [expand_omp_atomic]
          rw [if_pos hrange, if_pos hali, if_pos hfet]
        refine ⟨iff_of_true hrun ⟨hszd, halb, hint, hadj, hsh⟩, ?_, ?_⟩
        · rw [hrun]
          exact iff_of_false (by simp)
            (fun h => h.2.2.2 ⟨hint, hadj, hsh⟩)
        · rw [hrun]
          exact iff_of_false (by simp)
            (fun h => h.1 ⟨hszd, halb, hint, hadj, hsh⟩)
      · have hnA : ¬(inp.integralOrPointer = true ∧ inp.storeFollowsLoad = true
            ∧ rhs_shape_supported inp) := by
          rintro ⟨h1, h2, h3⟩
          exact hfet (by rw [h1, h2, Bool.true_and, Bool.true_and, hshape.mpr h3])
        by_cases hcas : inp.cas (exactLog2 inp.sizeBytes).toNat = true
        · have hrun : expand_omp_atomic inp = AtomicStrategy.cas_loop := by
            simp only [expand_omp_atomic]
            rw [if_pos hrange, if_pos hali,
              if_neg hfet, if_pos hcas]
          refine ⟨?_, iff_of_true hrun ⟨hszd, halb, hcas, hnA⟩, ?_⟩
          · rw [hrun]
            exact iff_of_false (by simp)
              (fun h => hnA ⟨h.2.2.1, h.2.2.2.1, h.2.2.2.2⟩)
          · rw [hrun]
            exact iff_of_false (by simp) (fun h => h.2 ⟨hszd, halb, hcas, hnA⟩)
        · have hrun : expand_omp_atomic inp = AtomicStrategy.mutex := by
            simp only [expand_omp_atomic]
            rw [if_pos hrange, if_pos hali,
              if_neg hfet, if_neg hcas]
          refine ⟨?_, ?_, iff_of_true hrun
            ⟨fun h => hnA ⟨h.2.2.1, h.2.2.2.1, h.2.2.2.2⟩, fun h => hcas h.2.2.1⟩⟩
          · rw [hrun]
            exact iff_of_false (by simp)
              (fun h => hnA ⟨h.2.2.1, h.2.2.2.1, h.2.2.2.2⟩)
          · rw [hrun]
            exact iff_of_false (by simp) (fun h => hcas h.2.2.1)
    · have halb : ¬ inp.sizeBytes ≤ inp.alignBytes := fun h => hali (halig.mpr h)
      have hrun : expand_omp_atomic inp = AtomicStrategy.mutex := by
        simp only [expand_omp_atomic]
        rw [if_pos hrange, if_neg hali]
      refine ⟨?_, ?_, iff_of_true hrun
        ⟨fun h => halb h.2.1, fun h => halb h.2.1⟩⟩
      · rw [hrun]
        exact iff_of_false (by simp) (fun h => halb h.2.1)
      · rw [hrun]
        exact iff_of_false (by simp) (fun h => halb h.2.1)
  · have hsz : ¬(inp.sizeBytes = 1 ∨ inp.sizeBytes = 2 ∨ inp.sizeBytes = 4
        ∨ inp.sizeBytes = 8 ∨ inp.sizeBytes = 16) :=
      fun h => hrange ((exactLog2_range_iff inp.sizeBytes).mpr h)
    have hrun : expand_omp_atomic inp = AtomicStrategy.mutex := by
      simp only [expand_omp_atomic]
      rw [if_neg hrange]
    refine ⟨?_, ?_, iff_of_true hrun ⟨fun h => hsz h.1, fun h => hsz h.1⟩⟩
    · rw [hrun]
      exact iff_of_false (by simp) (fun h => hsz h.1)
    · rw [hrun]
      exact iff_of_false (by simp) (fun h => hsz h.1)

/-- Claim C6, witness: the amended theorem at the integral 4-byte
fetch-add input, whose alignment is the power of two 2^2. -/
theorem c6_atomic_tiering_witness :
    atomic_fetch_input.alignBytes = 2 ^ 2
    ∧ (expand_omp_atomic atomic_fetch_input = AtomicStrategy.fetch_op ↔
        ((atomic_fetch_input.sizeBytes = 1 ∨ atomic_fetch_input.sizeBytes = 2
            ∨ atomic_fetch_input.sizeBytes = 4 ∨ atomic_fetch_input.sizeBytes = 8
            ∨ atomic_fetch_input.sizeBytes = 16)
          ∧ atomic_fetch_input.sizeBytes ≤ atomic_fetch_input.alignBytes
          ∧ atomic_fetch_input.integralOrPointer = true
          ∧ atomic_fetch_input.storeFollowsLoad = true
          ∧ rhs_shape_supported atomic_fetch_input)) :=
  ⟨rfl, (c6_atomic_tiering atomic_fetch_input 2 rfl).1⟩

/-! ## Theorems for claim C3 -/

/-- The block length is the ceiling of `n / nthreads`. -/
theorem nochunk_q_ceil (condLT : Bool) (n1 n2 step nthreads : Int)
    (hn0 : 0 ≤ nochunk_n condLT n1 n2 step) (hnt : 0 < nthreads) :
    IsCeilOf (nochunk_q condLT n1 n2 step nthreads)
      (nochunk_n condLT n1 n2 step) nthreads := by
  unfold nochunk_q
  exact q_ceil _ _ hn0 hnt

/-- The per-thread blocks partition the iteration indices. -/
theorem nochunk_partition (condLT : Bool) (n1 n2 step nthreads : Int)
    (hn0 : 0 ≤ nochunk_n condLT n1 n2 step) (hnt : 0 < nthreads) :
    ∀ i : Int, 0 ≤ i → i < nochunk_n condLT n1 n2 step →
      ∃! t : Int, 0 ≤ t ∧ t < nthreads
        ∧ nochunk_q condLT n1 n2 step nthreads * t ≤ i
        ∧ i < min (nochunk_q condLT n1 n2 step nthreads * t
              + nochunk_q condLT n1 n2 step nthreads)
            (nochunk_n condLT n1 n2 step) := by
  intro i h0 hin
  have hq := nochunk_q_ceil condLT n1 n2 step nthreads hn0 hnt
  unfold IsCeilOf at hq
  rw [if_pos hnt] at hq
  obtain ⟨hq1, hq2⟩ := hq
  have hn1 : 1 ≤ nochunk_n condLT n1 n2 step := by omega
  have hqpos : 0 < nochunk_q condLT n1 n2 step nthreads := by
    by_contra h
    push_neg at h
    have hmul : nthreads * nochunk_q condLT n1 n2 step nthreads ≤ 0 :=
      mul_nonpos_iff.mpr (Or.inl ⟨le_of_lt hnt, h⟩)
    linarith
  exact block_partition _ nthreads _ i hqpos hnt hq2 h0 hin

/-- The open-coded static expansion emits no loop-dispatch runtime
call. -/
theorem nochunk_calls (condLT : Bool) (n1 n2 step nthreads tid : Int)
    (nowait : Bool) :
    ∀ c ∈ (expand_omp_for_static_nochunk condLT n1 n2 step nthreads tid nowait).calls,
      c.isLoopDispatch = false := by
  intro c hc
  have hcalls : (expand_omp_for_static_nochunk condLT n1 n2 step nthreads tid nowait).calls
      = [CallId.omp_get_num_threads, CallId.omp_get_thread_num]
        ++ (if nowait then [] else [CallId.gomp_barrier]) := rfl
  rw [hcalls] at hc
  cases nowait
  · simp at hc
    rcases hc with rfl | rfl | rfl <;> rfl
  · simp at hc
    rcases hc with rfl | rfl <;> rfl

/-- Claim C3, counterexample: for the (empty) loop
`for (i = 0; i < -4; i += 2)` the partition block computes `n = -1`
(truncating division), which is not the ceiling of `(n2 - n1) / step`:
the true ceiling of `-4 / 2` is `-2`.  Every thread still skips the body,
but the claimed equality `n = ceil((n2 - n1) / step)` fails. -/
theorem c3_ceil_counterexample :
    (expand_omp_for_static_nochunk true 0 (-4) 2 4 0 false).n = -1
    ∧ ¬ IsCeilOf (expand_omp_for_static_nochunk true 0 (-4) 2 4 0 false).n
        ((-4) - 0) 2
    ∧ IsCeilOf (-2) ((-4) - 0) 2 := by
  decide

/-- Claim C3, amended: for a static no-chunk no-ordered loop whose
canonical direction matches its step sign and which is nonempty enough
(`n2 - n1 + step ∓ 1` on the nonnegative side of zero — in particular any
loop executing at least one iteration), the partition block computes
`n = ceil((n2 - n1) / step)` and `q = ceil(n / nthreads)` (the truncating
division rounded up exactly on a remainder), gives thread `tid` the block
`[q * tid, min (q * tid + q, n))` — these blocks partition `[0, n)`, one
block per thread id — skips the body exactly when the block is empty, and
iterates `v` from `s0 * step + n1` while `v` compares against
`e0 * step + n1` in the original direction; no `GOMP_loop_*` runtime call
is emitted.  (For emptier loops the computed `n` may exceed the true
ceiling, every block then being empty.) -/
theorem c3_static_nochunk_partition (condLT : Bool)
    (n1 n2 step nthreads tid : Int) (nowait : Bool)
    (hdir : if condLT = true then 0 < step else step < 0)
    (hne : if condLT = true then 0 ≤ n2 - n1 + step - 1
           else n2 - n1 + step + 1 ≤ 0)
    (hnt : 0 < nthreads) :
    IsCeilOf (expand_omp_for_static_nochunk condLT n1 n2 step nthreads tid nowait).n
        (n2 - n1) step
    ∧ IsCeilOf (expand_omp_for_static_nochunk condLT n1 n2 step nthreads tid nowait).q
        (expand_omp_for_static_nochunk condLT n1 n2 step nthreads tid nowait).n
        nthreads
    ∧ (expand_omp_for_static_nochunk condLT n1 n2 step nthreads tid nowait).s0
        = (expand_omp_for_static_nochunk condLT n1 n2 step nthreads tid nowait).q * tid
    ∧ (expand_omp_for_static_nochunk condLT n1 n2 step nthreads tid nowait).e0
        = min ((expand_omp_for_static_nochunk condLT n1 n2 step nthreads tid nowait).s0
            + (expand_omp_for_static_nochunk condLT n1 n2 step nthreads tid nowait).q)
          (expand_omp_for_static_nochunk condLT n1 n2 step nthreads tid nowait).n
    ∧ (expand_omp_for_static_nochunk condLT n1 n2 step nthreads tid nowait).v0
        = (expand_omp_for_static_nochunk condLT n1 n2 step nthreads tid nowait).s0
            * step + n1
    ∧ (expand_omp_for_static_nochunk condLT n1 n2 step nthreads tid nowait).e
        = (expand_omp_for_static_nochunk condLT n1 n2 step nthreads tid nowait).e0
            * step + n1
    ∧ (∀ i : Int, 0 ≤ i →
        i < (expand_omp_for_static_nochunk condLT n1 n2 step nthreads tid nowait).n →
        ∃! t : Int, 0 ≤ t ∧ t < nthreads
          ∧ (expand_omp_for_static_nochunk condLT n1 n2 step nthreads t nowait).s0 ≤ i
          ∧ i < (expand_omp_for_static_nochunk condLT n1 n2 step nthreads t nowait).e0)
    ∧ (∀ i : Int,
        loop_cond condLT (i * step + n1)
            (expand_omp_for_static_nochunk condLT n1 n2 step nthreads tid nowait).e
          ↔ i < (expand_omp_for_static_nochunk condLT n1 n2 step nthreads tid nowait).e0)
    ∧ (∀ c ∈ (expand_omp_for_static_nochunk condLT n1 n2 step nthreads tid nowait).calls,
        c.isLoopDispatch = false) := by
  cases condLT with
  | true =>
    rw [if_pos rfl] at hdir hne
    have hnum : nochunk_n true n1 n2 step = Int.tdiv (n2 - n1 + step - 1) step := by
      unfold nochunk_n
      rw [if_pos rfl]
      congr 1
      ring
    have hceil : IsCeilOf (nochunk_n true n1 n2 step) (n2 - n1) step := by
      rw [hnum]
      exact tdiv_ceil_pos hdir hne
    have hn0 : 0 ≤ nochunk_n true n1 n2 step := by
      have hc := hceil
      unfold IsCeilOf at hc
      rw [if_pos hdir] at hc
      obtain ⟨h1, h2⟩ := hc
      by_contra hneg
      push_neg at hneg
      have hnn : nochunk_n true n1 n2 step ≤ -1 := by omega
      have hmul : step * nochunk_n true n1 n2 step ≤ step * (-1) :=
        mul_le_mul_of_nonneg_left hnn (le_of_lt hdir)
      linarith
    refine ⟨hceil, nochunk_q_ceil true n1 n2 step nthreads hn0 hnt,
      rfl, rfl, rfl, rfl,
      nochunk_partition true n1 n2 step nthreads hn0 hnt, ?_,
      nochunk_calls true n1 n2 step nthreads tid nowait⟩
    intro i
    have hve : (expand_omp_for_static_nochunk true n1 n2 step nthreads tid nowait).e
        = (expand_omp_for_static_nochunk true n1 n2 step nthreads tid nowait).e0
            * step + n1 := rfl
    simp only [loop_cond, if_true]
    rw [hve]
    constructor
    · intro h
      have h2 : i * step
          < (expand_omp_for_static_nochunk true n1 n2 step nthreads tid nowait).e0
              * step := by linarith
      exact (mul_lt_mul_right hdir).mp h2
    · intro h
      have h2 : i * step
          < (expand_omp_for_static_nochunk true n1 n2 step nthreads tid nowait).e0
              * step := (mul_lt_mul_right hdir).mpr h
      linarith
  | false =>
    rw [if_neg Bool.false_ne_true] at hdir hne
    have hnum : nochunk_n false n1 n2 step = Int.tdiv (n2 - n1 + step + 1) step := by
      unfold nochunk_n
      rw [if_neg Bool.false_ne_true]
      congr 1
      ring
    have hceil : IsCeilOf (nochunk_n false n1 n2 step) (n2 - n1) step := by
      rw [hnum]
      exact tdiv_ceil_neg hdir hne
    have hn0 : 0 ≤ nochunk_n false n1 n2 step := by
      have hc := hceil
      unfold IsCeilOf at hc
      rw [if_neg (by omega : ¬ (0 : Int) < step)] at hc
      obtain ⟨h1, h2⟩ := hc
      by_contra hneg
      push_neg at hneg
      have hnn : nochunk_n false n1 n2 step + 1 ≤ 0 := by omega
      have hmul : 0 ≤ step * (nochunk_n false n1 n2 step + 1) :=
        mul_nonneg_iff.mpr (Or.inr ⟨le_of_lt hdir, hnn⟩)
      have e1 : step * (nochunk_n false n1 n2 step + 1)
          = step * nochunk_n false n1 n2 step + step := by ring
      linarith
    refine ⟨hceil, nochunk_q_ceil false n1 n2 step nthreads hn0 hnt,
      rfl, rfl, rfl, rfl,
      nochunk_partition false n1 n2 step nthreads hn0 hnt, ?_,
      nochunk_calls false n1 n2 step nthreads tid nowait⟩
    intro i
    have hve : (expand_omp_for_static_nochunk false n1 n2 step nthreads tid nowait).e
        = (expand_omp_for_static_nochunk false n1 n2 step nthreads tid nowait).e0
            * step + n1 := rfl
    simp only [loop_cond, Bool.false_eq_true, if_false]
    rw [hve]
    constructor
    · intro h
      have h2 : (expand_omp_for_static_nochunk false n1 n2 step nthreads tid nowait).e0
          * step < i * step := by linarith
      exact (mul_lt_mul_right_of_neg hdir).mp h2
    · intro h
      have h2 : (expand_omp_for_static_nochunk false n1 n2 step nthreads tid nowait).e0
          * step < i * step := (mul_lt_mul_right_of_neg hdir).mpr h
      linarith

/-- Claim C3, witness: the amended theorem at the loop
`for (i = 0; i < 100; i++)` with 4 threads, thread 1, a barrier at the
end. -/
theorem c3_static_nochunk_partition_witness :
    (if true = true then (0 : Int) < 1 else (1 : Int) < 0)
    ∧ (if true = true then (0 : Int) ≤ 100 - 0 + 1 - 1
       else (100 : Int) - 0 + 1 + 1 ≤ 0)
    ∧ (0 : Int) < 4
    ∧ IsCeilOf (expand_omp_for_static_nochunk true 0 100 1 4 1 false).n
        (100 - 0) 1 :=
  ⟨by decide, by decide, by decide,
    (c3_static_nochunk_partition true 0 100 1 4 1 false (by decide) (by decide)
      (by decide)).1⟩

end OmpLow
